import Mathlib

/-!
Verification of `src/Algebra/binPow.py`.

The source is a single Python function:

```python
def binpow(a, n):
    result = 1
    while n > 0:
        if n & 1:
            result *= a
        a *= a
        n >>= 1  # Shift n right by 1 bit (n //= 2)
    return result
```

We embed it shallowly in Lean.  The exponent `n` is a Python `int`,
modelled as `ℤ` (Python integers are arbitrary precision).  For the
integer base the whole computation is over `ℤ` (`binpow` below); for
claims about the dynamic `int`/`float` domain of the result we also
embed the loop over a tagged value type `PyVal` (`binpowPy` below).

On `ℤ`, Lean's `/` and `%` are Euclidean (the remainder is
non-negative for a positive divisor), which coincides with Python's
floor-division semantics of `n >> 1` and with `n & 1` for every
integer `n`, positive or negative; so `n % 2 = 1` is exactly Python's
`n & 1` truth test and `n / 2` is exactly Python's `n >>= 1`.
-/

namespace BinPow

/-- The local variables of `binpow`'s `while` loop: the accumulator
`result`, the repeatedly squared base `a`, and the remaining exponent
`n`. -/
structure LoopState where
  result : ℤ
  a : ℤ
  n : ℤ

/-- One iteration of the `while n > 0` loop body of `binpow`
(`if n & 1: result *= a`, then `a *= a`, then `n >>= 1`), and the
identity when the loop guard fails. -/
def binpowStep (s : LoopState) : LoopState :=
  if 0 < s.n then
    { result := if s.n % 2 = 1 then s.result * s.a else s.result
      a := s.a * s.a
      n := s.n / 2 }
  else s

/-- The `while n > 0` loop of `binpow` as a tail recursion on the loop
variables; returns the final `result`. -/
def binpowLoop (a n result : ℤ) : ℤ :=
  if 0 < n then
    binpowLoop (a * a) (n / 2) (if n % 2 = 1 then result * a else result)
  else result
termination_by n.toNat
decreasing_by omega

/-- Shallow embedding of `binpow(a, n)` from `src/Algebra/binPow.py`
over the exact integer domain: `result = 1`, then the loop. -/
def binpow (a n : ℤ) : ℤ := binpowLoop a n 1

/-- The number of iterations executed by `binpow`'s `while` loop when
the exponent is `n`. -/
def binpowIters (n : ℤ) : ℕ :=
  if 0 < n then binpowIters (n / 2) + 1 else 0
termination_by n.toNat
decreasing_by omega

/-- The arithmetic content of one loop iteration: multiplying `result`
by `a` exactly when `n` is odd and then squaring `a` preserves the
quantity `result * a ^ n`. -/
lemma squareMulStep (r a n : ℤ) (h : 0 < n) :
    (if n % 2 = 1 then r * a else r) * (a * a) ^ (n / 2).toNat = r * a ^ n.toNat := by
  by_cases hodd : n % 2 = 1
  · rw [if_pos hodd, show n.toNat = (n / 2).toNat + (n / 2).toNat + 1 by omega]
    ring
  · rw [if_neg hodd, show n.toNat = (n / 2).toNat + (n / 2).toNat by omega]
    ring

/-- The loop computes `result * a ^ n` for a non-negative remaining
exponent `n`. -/
lemma binpowLoop_eq_pow :
    ∀ m : ℕ, ∀ a n result : ℤ, n.toNat = m → 0 ≤ n →
      binpowLoop a n result = result * a ^ n.toNat := by
  intro m
  induction m using Nat.strong_induction_on with
  | _ m ih =>
    intro a n result hm hn
    rw [binpowLoop]
    by_cases h : 0 < n
    · rw [if_pos h]
      rw [ih (n / 2).toNat (by omega) (a * a) (n / 2) _ rfl (by omega)]
      exact squareMulStep result a n h
    · rw [if_neg h]
      have hz : n = 0 := by omega
      simp [hz]

/-- Functional correctness of `binpow` over `ℤ` for non-negative
exponents. -/
lemma binpow_eq_pow (a n : ℤ) (hn : 0 ≤ n) : binpow a n = a ^ n.toNat := by
  have h := binpowLoop_eq_pow n.toNat a n 1 rfl hn
  rw [binpow, h, one_mul]

/-- For a negative exponent the loop guard fails immediately and the
initial accumulator `1` is returned. -/
lemma binpow_of_neg (a n : ℤ) (hn : n < 0) : binpow a n = 1 := by
  rw [binpow, binpowLoop, if_neg (by omega)]

/-- A dynamically-typed Python numeric value: an arbitrary-precision
`int` or a `float`.  Float arithmetic is idealized here as exact
rational arithmetic; the domain claims proved below depend only on how
the `int`/`float` tag propagates through `*`, which follows Python's
promotion rules. -/
inductive PyVal where
  | int (z : ℤ)
  | float (x : ℚ)
  deriving DecidableEq

/-- Python `*` on numeric values: `int * int` stays `int`; any product
with a `float` operand is a `float`. -/
def PyVal.mul : PyVal → PyVal → PyVal
  | .int z, .int w => .int (z * w)
  | .int z, .float x => .float (z * x)
  | .float x, .int w => .float (x * w)
  | .float x, .float y => .float (x * y)

/-- Whether a Python value is a `float`. -/
def PyVal.isFloat : PyVal → Bool
  | .int _ => false
  | .float _ => true

/-- Whether a Python value is an `int`. -/
def PyVal.isInt : PyVal → Bool
  | .int _ => true
  | .float _ => false

/-- The `while n > 0` loop of `binpow` over dynamically-typed Python
values. -/
def binpowPyLoop (a : PyVal) (n : ℤ) (result : PyVal) : PyVal :=
  if 0 < n then
    binpowPyLoop (a.mul a) (n / 2) (if n % 2 = 1 then result.mul a else result)
  else result
termination_by n.toNat
decreasing_by omega

/-- Shallow embedding of `binpow(a, n)` over dynamically-typed Python
values; the accumulator starts as the Python `int` literal `1`. -/
def binpowPy (a : PyVal) (n : ℤ) : PyVal := binpowPyLoop a n (.int 1)

/-- On `int` arguments, the dynamically-typed loop is the `ℤ` loop:
the `int` tag is preserved throughout. -/
lemma binpowPyLoop_int :
    ∀ m : ℕ, ∀ z n r : ℤ, n.toNat = m →
      binpowPyLoop (.int z) n (.int r) = .int (binpowLoop z n r) := by
  intro m
  induction m using Nat.strong_induction_on with
  | _ m ih =>
    intro z n r hm
    rw [binpowPyLoop, binpowLoop]
    by_cases h : 0 < n
    · rw [if_pos h, if_pos h]
      by_cases hodd : n % 2 = 1
      · rw [if_pos hodd, if_pos hodd]
        exact ih (n / 2).toNat (by omega) (z * z) (n / 2) (r * z) rfl
      · rw [if_neg hodd, if_neg hodd]
        exact ih (n / 2).toNat (by omega) (z * z) (n / 2) r rfl
    · rw [if_neg h, if_neg h]

/-- Multiplying any Python value by a `float` yields a `float`. -/
lemma PyVal.mul_float_isFloat (v : PyVal) (x : ℚ) :
    (v.mul (.float x)).isFloat = true := by
  cases v <;> rfl

/-- With a `float` base, the loop returns a `float` as soon as the
accumulator is already a `float` or at least one iteration remains. -/
lemma binpowPyLoop_float :
    ∀ m : ℕ, ∀ x : ℚ, ∀ n : ℤ, ∀ r : PyVal, n.toNat = m →
      (r.isFloat = true ∨ 1 ≤ n) →
      (binpowPyLoop (.float x) n r).isFloat = true := by
  intro m
  induction m using Nat.strong_induction_on with
  | _ m ih =>
    intro x n r hm hr
    rw [binpowPyLoop]
    by_cases h : 0 < n
    · rw [if_pos h]
      show (binpowPyLoop ((PyVal.float x).mul (.float x)) (n / 2)
        (if n % 2 = 1 then r.mul (.float x) else r)).isFloat = true
      rw [show (PyVal.float x).mul (.float x) = .float (x * x) from rfl]
      refine ih (n / 2).toNat (by omega) (x * x) (n / 2) _ rfl ?_
      by_cases hodd : n % 2 = 1
      · rw [if_pos hodd]
        exact Or.inl (PyVal.mul_float_isFloat r x)
      · rw [if_neg hodd]
        right
        omega
    · rw [if_neg h]
      rcases hr with hr | hr
      · exact hr
      · omega

/-- The loop runs zero iterations on a non-positive exponent. -/
lemma binpowIters_nonpos (n : ℤ) (h : ¬ 0 < n) : binpowIters n = 0 := by
  rw [binpowIters, if_neg h]

/-- The loop runs exactly `⌊log2 n⌋ + 1` iterations on a positive
exponent `n`. -/
lemma binpowIters_eq_log2 :
    ∀ m : ℕ, ∀ n : ℤ, n.toNat = m → 0 < n →
      binpowIters n = Nat.log2 n.toNat + 1 := by
  intro m
  induction m using Nat.strong_induction_on with
  | _ m ih =>
    intro n hm hn
    rw [binpowIters, if_pos hn]
    by_cases h1 : n = 1
    · subst h1
      rw [show (1 : ℤ) / 2 = 0 by decide, binpowIters_nonpos 0 (by omega)]
      rw [show ((1 : ℤ)).toNat = 1 by rfl, Nat.log2]
      simp
    · have h2 : 2 ≤ n := by omega
      rw [ih (n / 2).toNat (by omega) (n / 2) rfl (by omega)]
      have hlog : n.toNat.log2 = (n.toNat / 2).log2 + 1 := by
        rw [Nat.log2, if_pos (show n.toNat ≥ 2 by omega)]
      rw [hlog, show (n / 2).toNat = n.toNat / 2 by omega]

/-- Unfolding of `binpowStep` when the loop guard holds. -/
lemma binpowStep_of_pos (s : LoopState) (h : 0 < s.n) :
    binpowStep s =
      { result := if s.n % 2 = 1 then s.result * s.a else s.result
        a := s.a * s.a
        n := s.n / 2 } := by
  rw [binpowStep, if_pos h]

/-- Unfolding of `binpowStep` when the loop guard fails. -/
lemma binpowStep_of_nonpos (s : LoopState) (h : ¬ 0 < s.n) : binpowStep s = s := by
  rw [binpowStep, if_neg h]

/-- One loop iteration keeps the remaining exponent non-negative. -/
lemma binpowStep_n_nonneg (s : LoopState) (h : 0 ≤ s.n) : 0 ≤ (binpowStep s).n := by
  by_cases hp : 0 < s.n
  · rw [binpowStep_of_pos s hp]
    dsimp only
    omega
  · rw [binpowStep_of_nonpos s hp]
    exact h

/-- One loop iteration preserves the quantity `result * a ^ n`. -/
lemma binpowStep_invariant (s : LoopState) :
    (binpowStep s).result * (binpowStep s).a ^ (binpowStep s).n.toNat
      = s.result * s.a ^ s.n.toNat := by
  by_cases hp : 0 < s.n
  · rw [binpowStep_of_pos s hp]
    exact squareMulStep s.result s.a s.n hp
  · rw [binpowStep_of_nonpos s hp]

/-- The remaining exponent stays non-negative at every iteration
boundary. -/
lemma binpowStep_iterate_nonneg (s : LoopState) (h : 0 ≤ s.n) (k : ℕ) :
    0 ≤ (binpowStep^[k] s).n := by
  induction k with
  | zero => simpa using h
  | succ k ihk =>
    rw [Function.iterate_succ_apply']
    exact binpowStep_n_nonneg _ ihk

/-- The quantity `result * a ^ n` is invariant across any number of
loop iterations. -/
lemma binpowStep_iterate_invariant (s : LoopState) (k : ℕ) :
    (binpowStep^[k] s).result * (binpowStep^[k] s).a ^ (binpowStep^[k] s).n.toNat
      = s.result * s.a ^ s.n.toNat := by
  induction k with
  | zero => simp
  | succ k ihk =>
    rw [Function.iterate_succ_apply', binpowStep_invariant _]
    exact ihk

/-- After `binpowIters s.n` iterations the remaining exponent has
reached `0`: the loop terminates. -/
lemma binpowStep_iterate_n_eq_zero :
    ∀ m : ℕ, ∀ s : LoopState, s.n.toNat = m → 0 ≤ s.n →
      (binpowStep^[binpowIters s.n] s).n = 0 := by
  intro m
  induction m using Nat.strong_induction_on with
  | _ m ih =>
    intro s hm hs
    by_cases hp : 0 < s.n
    · rw [binpowIters, if_pos hp, Function.iterate_succ_apply]
      have h1 : (binpowStep s).n = s.n / 2 := by rw [binpowStep_of_pos s hp]
      have h2 := ih (s.n / 2).toNat (by omega) (binpowStep s)
        (by rw [h1]) (by rw [h1]; omega)
      rw [h1] at h2
      exact h2
    · have h0 : s.n = 0 := by omega
      rw [binpowIters_nonpos s.n hp, Function.iterate_zero_apply, h0]

/-- Before the loop has terminated, `2 ^ k` still divides into the
original exponent: `k < binpowIters n` forces `2 ^ k ≤ n`. -/
lemma pow_le_of_lt_binpowIters (n : ℤ) (k : ℕ) (h0 : 0 ≤ n)
    (hk : k < binpowIters n) : 2 ^ k ≤ n.toNat := by
  have hp : 0 < n := by
    by_contra hc
    rw [binpowIters_nonpos n (by omega)] at hk
    omega
  rw [binpowIters_eq_log2 n.toNat n rfl hp] at hk
  have h3 : (2 : ℕ) ^ k ≤ 2 ^ n.toNat.log2 :=
    Nat.pow_le_pow_right (by norm_num) (by omega)
  have h4 : (2 : ℕ) ^ n.toNat.log2 ≤ n.toNat := by
    rw [Nat.log2_eq_log_two]
    exact Nat.pow_log_le_self 2 (by omega)
  omega

/-- C10: for an integer base, every intermediate value of the loop is
an exact arbitrary-precision integer power of the base, with no
wraparound, saturation, or precision loss: after `k ≤ binpowIters n`
iterations on inputs `(base, n)` with `n ≥ 0`, the local variables are
exactly `result = base ^ (n mod 2 ^ k)`, `a = base ^ (2 ^ k)` and
`n = n div 2 ^ k`, all computed over `ℤ`. -/
theorem binpow_intermediates_exact (base n : ℤ) (k : ℕ) (h0 : 0 ≤ n)
    (hk : k ≤ binpowIters n) :
    binpowStep^[k] ⟨1, base, n⟩ =
      ⟨base ^ (n.toNat % 2 ^ k), base ^ 2 ^ k, ((n.toNat / 2 ^ k : ℕ) : ℤ)⟩ := by
  induction k with
  | zero =>
    rw [Function.iterate_zero_apply, show (2 : ℕ) ^ 0 = 1 from rfl, Nat.mod_one,
      Nat.div_one, pow_zero, pow_one, Int.toNat_of_nonneg h0]
  | succ k ihk =>
    have hk1 : k < binpowIters n := by omega
    rw [Function.iterate_succ_apply', ihk (by omega)]
    have hle : 2 ^ k ≤ n.toNat := pow_le_of_lt_binpowIters n k h0 hk1
    have hpos : 0 < n.toNat / 2 ^ k := Nat.div_pos hle (by positivity)
    rw [binpowStep_of_pos _
      (show (0 : ℤ) < ((n.toNat / 2 ^ k : ℕ) : ℤ) by exact_mod_cast hpos)]
    dsimp only
    have hmod : n.toNat % 2 ^ (k + 1)
        = n.toNat % 2 ^ k + 2 ^ k * (n.toNat / 2 ^ k % 2) := by
      rw [pow_succ]
      exact Nat.mod_mul
    have ha : base ^ 2 ^ k * base ^ 2 ^ k = base ^ 2 ^ (k + 1) := by
      rw [← pow_add]
      congr 1
      rw [pow_succ]
      ring
    have hn2 : ((n.toNat / 2 ^ k : ℕ) : ℤ) / 2 = ((n.toNat / 2 ^ (k + 1) : ℕ) : ℤ) := by
      rw [show n.toNat / 2 ^ (k + 1) = n.toNat / 2 ^ k / 2 by
        rw [Nat.div_div_eq_div_mul, pow_succ]]
      omega
    have hres : (if ((n.toNat / 2 ^ k : ℕ) : ℤ) % 2 = 1
          then base ^ (n.toNat % 2 ^ k) * base ^ 2 ^ k
          else base ^ (n.toNat % 2 ^ k))
        = base ^ (n.toNat % 2 ^ (k + 1)) := by
      by_cases hb : n.toNat / 2 ^ k % 2 = 1
      · rw [if_pos (by omega), hmod, hb, ← pow_add]
        congr 1
        ring
      · rw [if_neg (by omega), hmod, show n.toNat / 2 ^ k % 2 = 0 by omega]
        congr 1
    rw [hres, ha, hn2]

/-- C1: for every integer base `a` (an exact numeric domain) and every
non-negative integer exponent `n`, `binpow a n` returns exactly `a`
raised to the power `n`. -/
theorem binpow_computes_pow (a n : ℤ) (hn : 0 ≤ n) : binpow a n = a ^ n.toNat :=
  binpow_eq_pow a n hn

/-- Witness for C1 at `a = 3`, `n = 4`. -/
theorem binpow_computes_pow_witness :
    (0 : ℤ) ≤ 4 ∧ binpow 3 4 = 3 ^ (4 : ℤ).toNat :=
  ⟨by decide, binpow_computes_pow 3 4 (by decide)⟩

/-- C2: for every base and every negative integer exponent, `binpow`
returns the identity value `1` and signals no error: the loop guard
`n > 0` is false on entry, so no iteration runs.  This holds for the
integer embedding and for the dynamically-typed embedding, where the
returned value is the Python `int` `1`. -/
theorem binpow_negative_exponent (n : ℤ) (hn : n < 0) :
    (∀ a : ℤ, binpow a n = 1) ∧ (∀ v : PyVal, binpowPy v n = .int 1) :=
  ⟨fun a => binpow_of_neg a n hn,
   fun v => by rw [binpowPy, binpowPyLoop, if_neg (by omega)]⟩

/-- Witness for C2 at `n = -3`. -/
theorem binpow_negative_exponent_witness :
    (-3 : ℤ) < 0 ∧ binpow 7 (-3) = 1 ∧ binpowPy (.float 2) (-3) = .int 1 :=
  ⟨by decide, (binpow_negative_exponent (-3) (by decide)).1 7,
   (binpow_negative_exponent (-3) (by decide)).2 (.float 2)⟩

/-- C3: for every base `a` — including `a = 0`, so the adopted
convention `0 ^ 0 = 1` holds — `binpow a 0` returns the multiplicative
identity `1`; likewise over dynamically-typed values. -/
theorem binpow_zero_exponent :
    (∀ a : ℤ, binpow a 0 = 1) ∧ (∀ v : PyVal, binpowPy v 0 = .int 1) :=
  ⟨fun a => by rw [binpow, binpowLoop, if_neg (by omega)],
   fun v => by rw [binpowPy, binpowPyLoop, if_neg (by omega)]⟩

/-- C4: the loop of `binpow` terminates for every non-negative
exponent — after `binpowIters n` iterations the remaining exponent has
reached `0` — and the number of iterations executed is exactly
`⌊log2 n⌋ + 1` when `n ≥ 1` and exactly `0` when `n = 0`. -/
theorem binpow_iteration_count (n : ℤ) (hn : 0 ≤ n) :
    binpowIters n = (if n = 0 then 0 else Nat.log2 n.toNat + 1) ∧
    ∀ a : ℤ, (binpowStep^[binpowIters n] ⟨1, a, n⟩).n = 0 := by
  constructor
  · by_cases h0 : n = 0
    · rw [if_pos h0, h0, binpowIters_nonpos 0 (by omega)]
    · rw [if_neg h0]
      exact binpowIters_eq_log2 n.toNat n rfl (by omega)
  · intro a
    exact binpowStep_iterate_n_eq_zero n.toNat ⟨1, a, n⟩ rfl hn

/-- Witness for C4 at `n = 10`, `a = 3`. -/
theorem binpow_iteration_count_witness :
    (0 : ℤ) ≤ 10 ∧
    binpowIters 10 = (if (10 : ℤ) = 0 then 0 else Nat.log2 (10 : ℤ).toNat + 1) ∧
    (binpowStep^[binpowIters 10] ⟨1, 3, 10⟩).n = 0 :=
  ⟨by decide, (binpow_iteration_count 10 (by decide)).1,
   (binpow_iteration_count 10 (by decide)).2 3⟩

/-- C5: at every iteration boundary of `binpow`'s loop on inputs
`(base, exponent)` with `exponent ≥ 0` — before the loop and after
each full iteration — the current values of the locals satisfy
`result * a ^ n = base ^ exponent`; in particular the invariant is
preserved by each iteration of the loop body. -/
theorem binpow_loop_invariant (base exponent : ℤ) (_h : 0 ≤ exponent) (k : ℕ) :
    (binpowStep^[k] ⟨1, base, exponent⟩).result
      * (binpowStep^[k] ⟨1, base, exponent⟩).a
        ^ ((binpowStep^[k] ⟨1, base, exponent⟩).n).toNat
      = base ^ exponent.toNat := by
  rw [binpowStep_iterate_invariant ⟨1, base, exponent⟩ k]
  exact one_mul _

/-- Witness for C5 at `base = 3`, `exponent = 5`, `k = 2`. -/
theorem binpow_loop_invariant_witness :
    (0 : ℤ) ≤ 5 ∧
    (binpowStep^[2] ⟨1, 3, 5⟩).result
      * (binpowStep^[2] ⟨1, 3, 5⟩).a ^ ((binpowStep^[2] ⟨1, 3, 5⟩).n).toNat
      = 3 ^ (5 : ℤ).toNat :=
  ⟨by decide, binpow_loop_invariant 3 5 (by decide) 2⟩

/-- C6: multiplicative consistency over the exact integer domain:
`binpow a (m + n) = binpow a m * binpow a n` for all non-negative
integer exponents `m` and `n`, exactly. -/
theorem binpow_mul_consistency (a m n : ℤ) (hm : 0 ≤ m) (hn : 0 ≤ n) :
    binpow a (m + n) = binpow a m * binpow a n := by
  rw [binpow_eq_pow a (m + n) (by omega), binpow_eq_pow a m hm,
    binpow_eq_pow a n hn, ← pow_add]
  congr 1
  omega

/-- Witness for C6 at `a = 5`, `m = 4`, `n = 3`. -/
theorem binpow_mul_consistency_witness :
    (0 : ℤ) ≤ 4 ∧ (0 : ℤ) ≤ 3 ∧ binpow 5 (4 + 3) = binpow 5 4 * binpow 5 3 :=
  ⟨by decide, by decide, binpow_mul_consistency 5 4 3 (by decide) (by decide)⟩

/-- C7: squaring consistency: `binpow a (2 * n) = (binpow a n) ^ 2`
for every integer base `a` and every non-negative integer `n`. -/
theorem binpow_squaring_consistency (a n : ℤ) (hn : 0 ≤ n) :
    binpow a (2 * n) = binpow a n ^ 2 := by
  rw [binpow_eq_pow a (2 * n) (by omega), binpow_eq_pow a n hn,
    show (2 * n).toNat = n.toNat * 2 by omega, pow_mul]

/-- Witness for C7 at `a = 3`, `n = 5`. -/
theorem binpow_squaring_consistency_witness :
    (0 : ℤ) ≤ 5 ∧ binpow 3 (2 * 5) = binpow 3 5 ^ 2 :=
  ⟨by decide, binpow_squaring_consistency 3 5 (by decide)⟩

/-- C8 counterexample: with a floating-point base and exponent `0`,
`binpow` returns the `int` `1` — not a value of the base's
floating-point domain — so C8 as stated fails at base `2.0`,
exponent `0`. -/
theorem binpowPy_float_zero_cex :
    (binpowPy (.float 2) 0).isFloat = false := by
  rw [binpowPy, binpowPyLoop, if_neg (by omega)]
  rfl

/-- C8 amended: an integer base yields an integer result for every
exponent (the computation agrees with the `ℤ` embedding); a
floating-point base yields a floating-point result for every exponent
`n ≥ 1`; but for exponent `0` the returned value is the initial
accumulator, the integer `1`, regardless of the base's domain. -/
theorem binpowPy_result_domain :
    (∀ z n : ℤ, binpowPy (.int z) n = .int (binpow z n)) ∧
    (∀ x : ℚ, ∀ n : ℤ, 1 ≤ n → (binpowPy (.float x) n).isFloat = true) ∧
    (∀ v : PyVal, binpowPy v 0 = .int 1) :=
  ⟨fun z n => binpowPyLoop_int n.toNat z n 1 rfl,
   fun x n hn => binpowPyLoop_float n.toNat x n (.int 1) rfl (Or.inr hn),
   fun v => by rw [binpowPy, binpowPyLoop, if_neg (by omega)]⟩

/-- Witness for the amended C8 at integer base `3` with exponent `5`,
float base `2.0` with exponent `5`, and float base `2.0` with
exponent `0`. -/
theorem binpowPy_result_domain_witness :
    binpowPy (.int 3) 5 = .int (binpow 3 5) ∧
    ((1 : ℤ) ≤ 5 ∧ (binpowPy (.float 2) 5).isFloat = true) ∧
    binpowPy (.float 2) 0 = .int 1 :=
  ⟨binpowPy_result_domain.1 3 5,
   ⟨by decide, binpowPy_result_domain.2.1 2 5 (by decide)⟩,
   binpowPy_result_domain.2.2 (.float 2)⟩

/-- C9: the concrete scenarios given in the spec all hold:
`binpow 2 10 = 1024`, `binpow 3 0 = 1`, `binpow 0 5 = 0`,
`binpow 5 1 = 5`, `binpow (-2) 3 = -8`, and `binpow 2 3 = 8`. -/
theorem binpow_concrete_scenarios :
    binpow 2 10 = 1024 ∧ binpow 3 0 = 1 ∧ binpow 0 5 = 0 ∧
    binpow 5 1 = 5 ∧ binpow (-2) 3 = -8 ∧ binpow 2 3 = 8 := by
  refine ⟨?_, ?_, ?_, ?_, ?_, ?_⟩ <;>
    rw [binpow_eq_pow _ _ (by omega)] <;> decide

/-- Witness for C10 at `base = 2`, `n = 10`, `k = 2`. -/
theorem binpow_intermediates_exact_witness :
    (0 : ℤ) ≤ 10 ∧ 2 ≤ binpowIters 10 ∧
    binpowStep^[2] ⟨1, 2, 10⟩ =
      ⟨2 ^ ((10 : ℤ).toNat % 2 ^ 2), 2 ^ 2 ^ 2, (((10 : ℤ).toNat / 2 ^ 2 : ℕ) : ℤ)⟩ :=
  ⟨by decide, by simp [binpowIters],
   binpow_intermediates_exact 2 10 2 (by decide) (by simp [binpowIters])⟩

end BinPow
